import Mathlib

/-!
Verification of the Pianoscribe core against its specification.

Two components are embedded, straight from the Python source:

* `analyze_model_agreement` (src/tasks/task-02/compare_models.py): the greedy
  note-matching loop and the agreement ratio.
* `SimplePianoTranscriber.transcribe` (src/tasks/task-01/simple_transcriber.py):
  the note-extraction pipeline, from the CQT-in-dB matrix and the detected
  onset frames to the filtered note list.  The audio loading, CQT and onset
  detection are external collaborators; the embedding starts where the core
  receives their numeric outputs, exactly as the specification scopes it.

Real numbers of the source (times in seconds, dB magnitudes) are modelled as
rationals, so every comparison in the source is exact here.
-/

namespace Pianoscribe

/-! ## Agreement scoring (compare_models.py, `analyze_model_agreement`)

A model-output note as the scorer reads it from JSON: the loop only
accesses `pitch_midi` and `onset_time_s`; `offset_time_s` is carried along
because the JSON records contain it. -/

structure MNote where
  pitch_midi : ℤ
  onset_time_s : ℚ
  offset_time_s : ℚ
deriving DecidableEq, Repr

/-- The matching test of the inner loop:
`abs(n1["pitch_midi"] - n2["pitch_midi"]) <= 1 and
 abs(n1["onset_time_s"] - n2["onset_time_s"]) <= 0.05`. -/
def matchOK (n1 n2 : MNote) : Bool :=
  decide (|n1.pitch_midi - n2.pitch_midi| ≤ 1 ∧
          |n1.onset_time_s - n2.onset_time_s| ≤ (1 : ℚ)/20)

/-- The inner `for n2 in notes2: ... break` loop: the first note of `b`
that matches `n1`, if any. -/
def firstMatch (n1 : MNote) (b : List MNote) : Option MNote :=
  b.find? (matchOK n1)

/-- The `matches` accumulator: one per note of `a` whose scan of `b` hit a
match (and then broke out of the inner loop). -/
def countMatches (a b : List MNote) : ℕ :=
  a.foldl (fun acc n1 => if (firstMatch n1 b).isSome then acc + 1 else acc) 0

/-- `agreement = matches / max(len(notes1), len(notes2)) if notes1 or notes2 else 0`. -/
def agreement (a b : List MNote) : ℚ :=
  if a ≠ [] ∨ b ≠ [] then
    (countMatches a b : ℚ) / ((max a.length b.length : ℕ) : ℚ)
  else 0

lemma countMatches_foldl (a b : List MNote) (acc : ℕ) :
    a.foldl (fun acc n1 => if (firstMatch n1 b).isSome then acc + 1 else acc) acc
      = acc + a.countP (fun n1 => (firstMatch n1 b).isSome) := by
  induction a generalizing acc with
  | nil => simp
  | cons n a ih =>
      by_cases h : (firstMatch n b).isSome
      · simp [List.foldl_cons, List.countP_cons, h, ih]; ring
      · simp [List.foldl_cons, List.countP_cons, h, ih]

lemma firstMatch_isSome (n1 : MNote) (b : List MNote) :
    (firstMatch n1 b).isSome =
      decide (∃ n2 ∈ b, |n1.pitch_midi - n2.pitch_midi| ≤ 1 ∧
                        |n1.onset_time_s - n2.onset_time_s| ≤ (1 : ℚ)/20) := by
  rcases h : firstMatch n1 b with _ | n2
  · simp only [Option.isSome_none]
    symm
    rw [decide_eq_false_iff_not]
    rintro ⟨n2, hmem, hcond⟩
    rw [firstMatch, List.find?_eq_none] at h
    exact h n2 hmem (by unfold matchOK; exact decide_eq_true hcond)
  · have h' : List.find? (matchOK n1) b = some n2 := h
    simp only [Option.isSome_some]
    symm
    rw [decide_eq_true_eq]
    have hp : matchOK n1 n2 = true := List.find?_some h'
    exact ⟨n2, List.mem_of_find?_eq_some h', of_decide_eq_true hp⟩

/-- C1.  The greedy first-fit scan over `b` counts a note `n1` of `a` as
matched exactly when some note of `b` is within pitch tolerance 1 and onset
tolerance 0.05 s of it, both bounds inclusive; a note of `b` may serve as the
partner of several notes of `a`, and `matches` is the number of notes of `a`
with such a partner. -/
theorem agreement_matches_iff_partner_exists (a b : List MNote) :
    countMatches a b =
      a.countP (fun n1 => decide (∃ n2 ∈ b,
        |n1.pitch_midi - n2.pitch_midi| ≤ 1 ∧
        |n1.onset_time_s - n2.onset_time_s| ≤ (1 : ℚ)/20)) := by
  rw [countMatches, countMatches_foldl, Nat.zero_add]
  congr 1
  funext n1
  exact firstMatch_isSome n1 b

lemma countMatches_le_length (a b : List MNote) : countMatches a b ≤ a.length := by
  rw [countMatches, countMatches_foldl, Nat.zero_add]
  exact List.countP_le_length _

lemma max_length_cast_pos {a b : List MNote} (h : ¬(a = [] ∧ b = [])) :
    (0 : ℚ) < (max a.length b.length : ℕ) := by
  have : 0 < max a.length b.length := by
    rcases not_and_or.mp h with h' | h'
    · exact lt_max_of_lt_left (List.length_pos.mpr h')
    · exact lt_max_of_lt_right (List.length_pos.mpr h')
  exact_mod_cast this

/-- C3.  The agreement ratio is `matches / max(|a|, |b|)` whenever at least
one list is nonempty, and is the plain value 0 (no division is attempted)
when both are empty. -/
theorem agreement_ratio_spec :
    agreement [] [] = 0 ∧
    ∀ a b : List MNote, ¬(a = [] ∧ b = []) →
      agreement a b * (max a.length b.length : ℕ) = (countMatches a b : ℚ) := by
  refine ⟨by simp [agreement], fun a b h => ?_⟩
  rw [agreement, if_pos (by tauto)]
  exact div_mul_cancel₀ _ (ne_of_gt (max_length_cast_pos h))

theorem agreement_ratio_spec_witness :
    ¬(([⟨60, 0, 1/2⟩] : List MNote) = [] ∧ ([] : List MNote) = []) ∧
    agreement [⟨60, 0, 1/2⟩] []
        * (max ([⟨60, 0, 1/2⟩] : List MNote).length ([] : List MNote).length : ℕ)
      = (countMatches [⟨60, 0, 1/2⟩] [] : ℚ) :=
  ⟨by decide, agreement_ratio_spec.2 [⟨60, 0, 1/2⟩] [] (by decide)⟩

/-- C7.  The greedy one-sided matching is not commutative: on the spec's own
scenario (`a = [(60, 0.0, 0.5)]`, `b = [(61, 0.02, 0.5), (60, 0.0, 0.5)]`)
the two orders give ratios 1/2 and 1. -/
theorem agreement_asymmetric :
    agreement [⟨60, 0, 1/2⟩] [⟨61, 1/50, 1/2⟩, ⟨60, 0, 1/2⟩]
      ≠ agreement [⟨61, 1/50, 1/2⟩, ⟨60, 0, 1/2⟩] [⟨60, 0, 1/2⟩] ∧
    agreement [⟨60, 0, 1/2⟩] [⟨61, 1/50, 1/2⟩, ⟨60, 0, 1/2⟩] = 1/2 := by
  constructor
  · with_unfolding_all decide
  · with_unfolding_all decide

/-- C9.  Each note of `a` contributes at most one match, so
`0 ≤ matches ≤ |a| ≤ max(|a|, |b|)` and the ratio lies in `[0, 1]`. -/
theorem agreement_ratio_bounds (a b : List MNote) (h : ¬(a = [] ∧ b = [])) :
    countMatches a b ≤ a.length ∧ a.length ≤ max a.length b.length ∧
    0 ≤ agreement a b ∧ agreement a b ≤ 1 := by
  have hle := countMatches_le_length a b
  have hmax : (0 : ℚ) < (max a.length b.length : ℕ) := max_length_cast_pos h
  refine ⟨hle, le_max_left _ _, ?_, ?_⟩
  · rw [agreement]
    split
    · exact div_nonneg (by positivity) (le_of_lt hmax)
    · exact le_refl 0
  · rw [agreement, if_pos (by tauto)]
    rw [div_le_one hmax]
    exact_mod_cast le_trans hle (le_max_left _ _)

theorem agreement_ratio_bounds_witness :
    ¬(([⟨60, 0, 1/2⟩] : List MNote) = [] ∧ ([] : List MNote) = []) ∧
    countMatches [⟨60, 0, 1/2⟩] [] ≤ ([⟨60, 0, 1/2⟩] : List MNote).length ∧
    ([⟨60, 0, 1/2⟩] : List MNote).length
      ≤ max ([⟨60, 0, 1/2⟩] : List MNote).length ([] : List MNote).length ∧
    0 ≤ agreement [⟨60, 0, 1/2⟩] [] ∧ agreement [⟨60, 0, 1/2⟩] [] ≤ 1 :=
  ⟨by decide, agreement_ratio_bounds [⟨60, 0, 1/2⟩] [] (by decide)⟩

/-! ## Note extraction (simple_transcriber.py, `SimplePianoTranscriber.transcribe`)

The spectrogram `C_db` is modelled as the list of its frame columns
(`colAt C f` is the column `C_db[:, f]`), each column holding one rational dB
magnitude per pitch bin; `C_db.shape[1]` is `C.length`.  The audio loading,
CQT and onset detection are external collaborators, so the embedding starts
at line 51 of the source, where the loop over the detected onset frames
begins. -/

structure NoteEvent where
  pitch_midi : ℕ
  onset_time_s : ℚ
  offset_time_s : ℚ
  velocity : ℤ
  confidence : ℚ
deriving DecidableEq, Repr

/-- The inner `while` of `scipy.signal._peak_finding_utils._local_maxima_1d`
(the first stage of the `find_peaks` call at line 58): starting at `j`, skip
over samples equal to `x i` while `j < iMax`.  The first argument is
structural fuel for the loop; callers pass enough for it to run out of
bounds, never out of fuel. -/
def plateauEnd (x : ℕ → ℚ) (iMax i : ℕ) : ℕ → ℕ → ℕ
  | 0, j => j
  | fuel + 1, j => if j < iMax ∧ x j = x i then plateauEnd x iMax i fuel (j + 1) else j

/-- The outer loop of `_local_maxima_1d` over `1 ≤ i < iMax = len(x) - 1`:
an interior sample strictly above its left neighbour starts a (possibly
flat) candidate top; if the run ends with a strict drop, the midpoint of the
plateau is recorded and the scan resumes past it. -/
def lmLoop (x : ℕ → ℚ) (iMax : ℕ) : ℕ → ℕ → List ℕ
  | 0, _ => []
  | fuel + 1, i =>
    if i < iMax then
      if x (i - 1) < x i then
        let iAhead := plateauEnd x iMax i iMax (i + 1)
        if x iAhead < x i then
          (i + (iAhead - 1)) / 2 :: lmLoop x iMax fuel (iAhead + 1)
        else lmLoop x iMax fuel (i + 1)
      else lmLoop x iMax fuel (i + 1)
    else []

/-- All interior local maxima of a column, in ascending bin order, flat tops
reduced to their midpoints — `_local_maxima_1d(x)`. -/
def localMaxima (xs : List ℚ) : List ℕ :=
  lmLoop (fun i => xs.getD i 0) (xs.length - 1) xs.length 1

/-- The `height=-40` condition of `find_peaks`: keep peaks whose magnitude is
at least `minDb` (scipy's lower bound is inclusive: `hmin <= peak_heights`). -/
def heightSelect (xs : List ℚ) (minDb : ℚ) (peaks : List ℕ) : List ℕ :=
  peaks.filter (fun p => decide (minDb ≤ xs.getD p 0))

/-- One step of scipy's `_select_by_peak_distance`: if position `j` of the
peak list is still marked kept, clear the mark of every other position whose
peak lies closer than `dist` bins to peak `j`. -/
def clearNear (peaks : List ℕ) (dist : ℕ) (keep : List Bool) (j : ℕ) : List Bool :=
  if keep.getD j false then
    (List.range keep.length).map fun k =>
      if k ≠ j ∧ ((peaks.getD k 0 : ℤ) - (peaks.getD j 0 : ℤ)).natAbs < dist then false
      else keep.getD k false
  else keep

/-- Insertion of `a` behind every already-placed element `b` with `bef b a`:
with `sortBy` this is a stable sort — the semantics of Python's
`list.sort(key=...)` when `bef` is a strict key comparison. -/
def insertBy (bef : α → α → Bool) (a : α) : List α → List α
  | [] => [a]
  | b :: l => if bef b a then b :: insertBy bef a l else a :: b :: l

def sortBy (bef : α → α → Bool) : List α → List α
  | [] => []
  | a :: l => insertBy bef a (sortBy bef l)

/-- Peak-list positions in decreasing order of magnitude, the order in which
`_select_by_peak_distance` visits them (highest priority first).
`numpy.argsort` leaves the order of equal magnitudes unspecified; ties here
go to the larger position.  The tie choice cannot change `findPeaks` for the
source's `distance=2`, since interior maxima are never adjacent. -/
def prioOrder (heights : List ℚ) : List ℕ :=
  sortBy (fun b a => decide (heights.getD a 0 < heights.getD b 0 ∨
                             (heights.getD a 0 = heights.getD b 0 ∧ a < b)))
    (List.range heights.length)

/-- Keep the elements of `l` whose mask entry is `true`. -/
def applyMask : List α → List Bool → List α
  | [], _ => []
  | _ :: _, [] => []
  | a :: as, b :: bs => if b then a :: applyMask as bs else applyMask as bs

/-- scipy's `_select_by_peak_distance(peaks, x[peaks], distance)`:
process positions by decreasing magnitude, clearing neighbours closer than
`dist` bins; surviving peaks keep their ascending order. -/
def distanceSelect (xs : List ℚ) (dist : ℕ) (peaks : List ℕ) : List ℕ :=
  let keep := (prioOrder (peaks.map fun p => xs.getD p 0)).foldl
    (clearNear peaks dist) (List.replicate peaks.length true)
  applyMask peaks keep

/-- `find_peaks(spectrum, height=-40, distance=2)` as called at line 58 (in
scipy, the height condition is applied before the distance condition). -/
def findPeaks (xs : List ℚ) (minDb : ℚ) (dist : ℕ) : List ℕ :=
  distanceSelect xs dist (heightSelect xs minDb (localMaxima xs))

/-- The peak picker's result as `(bin, magnitude)` pairs: `peaks` paired with
`properties['peak_heights']`, which scipy sets to `x[peaks]`. -/
def pick (xs : List ℚ) (minDb : ℚ) (dist : ℕ) : List (ℕ × ℚ) :=
  (findPeaks xs minDb dist).map fun p => (p, xs.getD p 0)

/-- `librosa.frames_to_time(f, sr=sr, hop_length=hop) = f * hop / sr`. -/
def frameTime (sr hop f : ℕ) : ℚ := (f : ℚ) * hop / sr

/-- `self.frame_rate = sample_rate / hop_length` (Python true division). -/
def frameRate (sr hop : ℕ) : ℚ := (sr : ℚ) / hop

/-- The column `C_db[:, f]`. -/
def colAt (C : List (List ℚ)) (f : ℕ) : List ℚ := C.getD f []

/-- The entry `C_db[bin, f]`. -/
def cqtVal (C : List (List ℚ)) (bin f : ℕ) : ℚ := (colAt C f).getD bin 0

/-- `int(self.frame_rate * 0.5)`, the 0.5 s fallback duration in frames
(21 at the default 22050 / 512; `int` truncates, `frame_rate ≥ 0`). -/
def halfSecFrames (sr hop : ℕ) : ℕ := ⌊frameRate sr hop * (1/2)⌋.toNat

/-- `int(self.frame_rate * 2)`, the decay-scan window in frames. -/
def twoSecFrames (sr hop : ℕ) : ℕ := ⌊frameRate sr hop * 2⌋.toNat

/-- The decay scan of lines 73–76: the first frame of
`range(onset_frame + 1, min(onset_frame + int(self.frame_rate * 2), C_db.shape[1]))`
whose magnitude at the peak's bin has dropped below −50 dB. -/
def decayFrame (sr hop : ℕ) (C : List (List ℚ)) (onset bin : ℕ) : Option ℕ :=
  (List.range' (onset + 1) (min (onset + twoSecFrames sr hop) C.length - (onset + 1))).find?
    fun cf => decide (cqtVal C bin cf < -50)

/-- The estimated offset frame (lines 70–76): the decay frame when the scan
found one, else the fallback `onset_frame + int(self.frame_rate * 0.5)`. -/
def offsetFrame (sr hop : ℕ) (C : List (List ℚ)) (onset bin : ℕ) : ℕ :=
  (decayFrame sr hop C onset bin).getD (onset + halfSecFrames sr hop)

/-- `int(min(127, max(1, (peak_height + 60) * 2)))` (line 67; the argument of
`int` is at least 1, so truncation is a floor). -/
def velocityOf (peakHeight : ℚ) : ℤ := ⌊min 127 (max 1 ((peakHeight + 60) * 2))⌋

/-- One appended note dict (lines 81–87).  The indexing
`properties['peak_heights'][list(peaks).index(peak_idx)]` is the column
value at the peak's own bin, since peak indices are distinct. -/
def noteAt (sr hop : ℕ) (C : List (List ℚ)) (onset bin : ℕ) : NoteEvent :=
  { pitch_midi := 21 + bin
    onset_time_s := frameTime sr hop onset
    offset_time_s := frameTime sr hop (offsetFrame sr hop C onset bin)
    velocity := velocityOf (cqtVal C bin onset)
    confidence := 1/2 }

/-- All notes contributed by one onset frame: one per picked peak, in the
peaks' ascending bin order. -/
def candidatesAt (sr hop : ℕ) (C : List (List ℚ)) (onset : ℕ) : List NoteEvent :=
  (findPeaks (colAt C onset) (-40) 2).map (noteAt sr hop C onset)

/-- The guarded per-frame contribution: the loop body runs only under
`if onset_frame < C_db.shape[1]` (line 53), so an out-of-range onset frame
contributes nothing — and raises nothing. -/
def frameNotes (sr hop : ℕ) (C : List (List ℚ)) (onset : ℕ) : List NoteEvent :=
  if onset < C.length then candidatesAt sr hop C onset else []

/-- The accumulated `notes` list over all supplied onset frames (lines 51–87). -/
def rawCandidates (sr hop : ℕ) (C : List (List ℚ)) (frames : List ℕ) : List NoteEvent :=
  frames.flatMap (frameNotes sr hop C)

/-- The strict-onset comparison realising `key=lambda x: x['onset_time_s']`. -/
def noteBefore (b a : NoteEvent) : Bool := decide (b.onset_time_s < a.onset_time_s)

/-- `notes.sort(key=lambda x: x['onset_time_s'])` (line 90): Python's sort is
stable, so the strict-key insertion sort has the same semantics. -/
def sortedCandidates (sr hop : ℕ) (C : List (List ℚ)) (frames : List ℕ) : List NoteEvent :=
  sortBy noteBefore (rawCandidates sr hop C frames)

/-- The test of lines 98–99: `existing['pitch_midi'] == note['pitch_midi'] and
existing['onset_time_s'] <= note['onset_time_s'] < existing['offset_time_s']`. -/
def coveredBy (e n : NoteEvent) : Bool :=
  decide (e.pitch_midi = n.pitch_midi ∧
          e.onset_time_s ≤ n.onset_time_s ∧ n.onset_time_s < e.offset_time_s)

/-- The filtering loop of lines 93–103: `filtered_notes` grows left to right,
and a note is appended unless some already-kept note of the same pitch
covers its onset. -/
def overlapGo (kept : List NoteEvent) : List NoteEvent → List NoteEvent
  | [] => kept
  | n :: rest =>
      if kept.any (fun e => coveredBy e n) then overlapGo kept rest
      else overlapGo (kept ++ [n]) rest

def overlapFilter (l : List NoteEvent) : List NoteEvent := overlapGo [] l

/-- The note list returned by `transcribe` (lines 51–106): accumulate the
per-onset-frame candidates, sort them by onset time, then drop same-pitch
overlaps. -/
def transcribe (sr hop : ℕ) (C : List (List ℚ)) (frames : List ℕ) : List NoteEvent :=
  overlapFilter (sortedCandidates sr hop C frames)

/-! ### The peak picker returns ascending bins (C8) -/

lemma midpoint_lower (i pe : ℕ) (h : i + 1 ≤ pe) : i ≤ (i + (pe - 1)) / 2 := by omega

lemma midpoint_upper (i pe : ℕ) (h : i + 1 ≤ pe) : (i + (pe - 1)) / 2 < pe + 1 := by omega

lemma plateauEnd_ge (x : ℕ → ℚ) (iMax i : ℕ) :
    ∀ fuel j, j ≤ plateauEnd x iMax i fuel j := by
  intro fuel
  induction fuel with
  | zero => intro j; exact le_refl j
  | succ fuel ih =>
      intro j
      rw [plateauEnd]
      split
      · exact le_trans (Nat.le_succ j) (ih (j + 1))
      · exact le_refl j

lemma lmLoop_lb (x : ℕ → ℚ) (iMax : ℕ) :
    ∀ fuel i, ∀ p ∈ lmLoop x iMax fuel i, i ≤ p := by
  intro fuel
  induction fuel with
  | zero => intro i p hp; simp [lmLoop] at hp
  | succ fuel ih =>
      intro i p hp
      simp only [lmLoop] at hp
      split at hp
      · split at hp
        · split at hp
          · rcases List.mem_cons.mp hp with h | h
            · subst h
              exact midpoint_lower i _ (plateauEnd_ge x iMax i iMax (i + 1))
            · have hA : i + 1 ≤ plateauEnd x iMax i iMax (i + 1) :=
                plateauEnd_ge x iMax i iMax (i + 1)
              have := ih _ p h
              omega
          · exact le_trans (Nat.le_succ i) (ih _ p hp)
        · exact le_trans (Nat.le_succ i) (ih _ p hp)
      · simp at hp

lemma lmLoop_sorted (x : ℕ → ℚ) (iMax : ℕ) :
    ∀ fuel i, (lmLoop x iMax fuel i).Pairwise (· < ·) := by
  intro fuel
  induction fuel with
  | zero => intro i; simp [lmLoop]
  | succ fuel ih =>
      intro i
      simp only [lmLoop]
      split
      · split
        · split
          · refine List.pairwise_cons.mpr ⟨fun p hp => ?_, ih _⟩
            have hA : i + 1 ≤ plateauEnd x iMax i iMax (i + 1) :=
              plateauEnd_ge x iMax i iMax (i + 1)
            have hp' := lmLoop_lb x iMax fuel _ p hp
            exact lt_of_lt_of_le (midpoint_upper i _ hA) hp'
          · exact ih _
        · exact ih _
      · simp

lemma localMaxima_sorted (xs : List ℚ) : (localMaxima xs).Pairwise (· < ·) :=
  lmLoop_sorted _ _ _ _

lemma applyMask_sublist : ∀ (l : List α) (m : List Bool), List.Sublist (applyMask l m) l := by
  intro l
  induction l with
  | nil => intro m; cases m <;> simp [applyMask]
  | cons a as ih =>
      intro m
      cases m with
      | nil => simp [applyMask]
      | cons b bs =>
          rw [applyMask]
          split
          · exact (ih bs).cons₂ a
          · exact (ih bs).cons a

lemma findPeaks_sorted (xs : List ℚ) (minDb : ℚ) (dist : ℕ) :
    (findPeaks xs minDb dist).Pairwise (· < ·) := by
  have h1 : (heightSelect xs minDb (localMaxima xs)).Pairwise (· < ·) :=
    (localMaxima_sorted xs).filter _
  exact List.Pairwise.sublist (applyMask_sublist _ _) h1

/-- C8 as written fails on the code: `find_peaks` reports peaks in ascending
bin order, so on a column whose second peak is the louder one the returned
pairs are in ascending magnitude order. -/
theorem pick_not_descending_by_magnitude :
    ¬ (pick [-60, -30, -60, -10, -60] (-40) 2).Pairwise (fun a b => b.2 ≤ a.2) := by
  have : pick [-60, -30, -60, -10, -60] (-40) 2 = [(1, -30), (3, -10)] := by
    norm_num [pick, findPeaks, localMaxima, lmLoop, plateauEnd, heightSelect,
      distanceSelect, prioOrder, sortBy, insertBy, applyMask, clearNear, List.range,
      List.range.loop]
  rw [this]
  simp only [List.pairwise_cons, List.mem_singleton]
  rintro ⟨h, -⟩
  have := h (3, -10) rfl
  norm_num at this

/-- C8, amended.  For every input column and thresholds the picker returns
its `(bin, magnitude)` pairs in ascending bin order — the order
`scipy.signal.find_peaks` reports them in — not in descending magnitude
order; the empty sequence remains a valid result (silent column). -/
theorem pick_ascending_bins :
    (∀ (xs : List ℚ) (minDb : ℚ) (dist : ℕ),
      (pick xs minDb dist).Pairwise (fun a b => a.1 < b.1)) ∧
    pick [-60, -60, -60] (-40) 2 = [] := by
  constructor
  · intro xs minDb dist
    exact (findPeaks_sorted xs minDb dist).map _ (fun a b h => h)
  · norm_num [pick, findPeaks, localMaxima, lmLoop, plateauEnd, heightSelect,
      distanceSelect, prioOrder, sortBy, insertBy, applyMask, clearNear, List.range,
      List.range.loop]

/-! ### The stable sort by onset time -/

lemma mem_insertBy {a x : α} (bef : α → α → Bool) :
    ∀ l : List α, x ∈ insertBy bef a l ↔ x = a ∨ x ∈ l := by
  intro l
  induction l with
  | nil => simp [insertBy]
  | cons b l ih =>
      rw [insertBy]
      split
      · simp only [List.mem_cons, ih]
        tauto
      · simp only [List.mem_cons]

lemma mem_sortBy {x : α} (bef : α → α → Bool) :
    ∀ l : List α, x ∈ sortBy bef l ↔ x ∈ l := by
  intro l
  induction l with
  | nil => simp [sortBy]
  | cons a l ih =>
      rw [sortBy, mem_insertBy, ih, List.mem_cons]

/-- Pairwise weak order of the insertion result, stated for the onset key. -/
lemma insertBy_sorted (a : NoteEvent) :
    ∀ l : List NoteEvent,
      l.Pairwise (fun m n => m.onset_time_s ≤ n.onset_time_s) →
      (insertBy noteBefore a l).Pairwise (fun m n => m.onset_time_s ≤ n.onset_time_s) := by
  intro l
  induction l with
  | nil => intro _; simp [insertBy]
  | cons b l ih =>
      intro hp
      rcases List.pairwise_cons.mp hp with ⟨hb, hl⟩
      rw [insertBy]
      split
      · rename_i hba
        refine List.pairwise_cons.mpr ⟨fun x hx => ?_, ih hl⟩
        rcases (mem_insertBy noteBefore l).mp hx with h | h
        · subst h
          exact le_of_lt (of_decide_eq_true hba)
        · exact hb x h
      · rename_i hba
        have hab : a.onset_time_s ≤ b.onset_time_s := by
          simp only [noteBefore, decide_eq_true_eq] at hba
          exact le_of_not_lt hba
        refine List.pairwise_cons.mpr ⟨fun x hx => ?_, hp⟩
        rcases List.mem_cons.mp hx with h | h
        · subst h; exact hab
        · exact le_trans hab (hb x h)

lemma sortBy_sorted :
    ∀ l : List NoteEvent,
      (sortBy noteBefore l).Pairwise (fun m n => m.onset_time_s ≤ n.onset_time_s) := by
  intro l
  induction l with
  | nil => simp [sortBy]
  | cons a l ih => exact insertBy_sorted a _ ih

/-- Stability of the sort, in filter form: the subsequence of notes with any
fixed onset time is untouched.  This is exactly what Python's stable
`list.sort(key=...)` guarantees. -/
lemma insertBy_filter_key (a : NoteEvent) (t : ℚ) :
    ∀ l : List NoteEvent,
      (insertBy noteBefore a l).filter (fun n => decide (n.onset_time_s = t))
        = if a.onset_time_s = t
          then a :: l.filter (fun n => decide (n.onset_time_s = t))
          else l.filter (fun n => decide (n.onset_time_s = t)) := by
  intro l
  induction l with
  | nil =>
      rw [insertBy]
      by_cases hat : a.onset_time_s = t <;> simp [hat]
  | cons b l ih =>
      rw [insertBy]
      split
      · rename_i hba
        have hlt : b.onset_time_s < a.onset_time_s := of_decide_eq_true hba
        by_cases hat : a.onset_time_s = t
        · have hbt : ¬ b.onset_time_s = t := by
            intro hbt
            rw [hat] at hlt
            rw [hbt] at hlt
            exact lt_irrefl t hlt
          simp [List.filter_cons, hat, hbt, ih]
        · simp [List.filter_cons, hat, ih]
      · by_cases hat : a.onset_time_s = t <;> simp [List.filter_cons, hat]

lemma sortBy_filter_key (t : ℚ) :
    ∀ l : List NoteEvent,
      (sortBy noteBefore l).filter (fun n => decide (n.onset_time_s = t))
        = l.filter (fun n => decide (n.onset_time_s = t)) := by
  intro l
  induction l with
  | nil => rfl
  | cons a l ih =>
      rw [sortBy, insertBy_filter_key, List.filter_cons]
      by_cases hat : a.onset_time_s = t <;> simp [hat, ih]

/-! ### Out-of-range onset frames are silently skipped (C5) -/

lemma rawCandidates_filter_frames (sr hop : ℕ) (C : List (List ℚ)) :
    ∀ frames : List ℕ,
      rawCandidates sr hop C (frames.filter fun f => decide (f < C.length))
        = rawCandidates sr hop C frames := by
  intro frames
  induction frames with
  | nil => rfl
  | cons f fs ih =>
      rw [rawCandidates, List.filter_cons]
      by_cases h : f < C.length
      · rw [rawCandidates] at ih
        simp [rawCandidates, List.flatMap_cons, ih, h]
      · have hempty : frameNotes sr hop C f = [] := if_neg h
        rw [rawCandidates] at ih
        simp [rawCandidates, List.flatMap_cons, ih, hempty, h]

/-- Shared helper: the transcription ignores out-of-range onset frames. -/
lemma transcribe_filter_frames (sr hop : ℕ) (C : List (List ℚ)) (frames : List ℕ) :
    transcribe sr hop C (frames.filter fun f => decide (f < C.length))
      = transcribe sr hop C frames := by
  rw [transcribe, transcribe, sortedCandidates, sortedCandidates,
    rawCandidates_filter_frames]

/-- C5 as written fails on the code: the guard `if onset_frame <
C_db.shape[1]` (line 53) silently skips out-of-range onset frames.  On a
1-frame spectrogram asked about onset frame 5, the extractor returns the
same plain transcription as with the bad frame removed — a silently reduced
result, not a surfaced invalid-input-shape error. -/
theorem out_of_range_frame_not_an_error :
    ¬ (∀ (sr hop : ℕ) (C : List (List ℚ)) (frames : List ℕ),
        (∃ f ∈ frames, C.length ≤ f) →
        transcribe sr hop C frames
          ≠ transcribe sr hop C (frames.filter fun f => decide (f < C.length))) := by
  intro h
  exact h 22050 512 [[-60, -10, -60]] [5] ⟨5, by norm_num, by norm_num⟩
    (transcribe_filter_frames 22050 512 [[-60, -10, -60]] [5]).symm

/-- C5, amended.  An out-of-range onset frame is never an error and never
contributes notes: for every input, the transcription equals that of the
same input with the out-of-range frames removed. -/
theorem transcribe_skips_out_of_range_frames (sr hop : ℕ) (C : List (List ℚ))
    (frames : List ℕ) :
    transcribe sr hop C frames
      = transcribe sr hop C (frames.filter fun f => decide (f < C.length)) :=
  (transcribe_filter_frames sr hop C frames).symm

/-! ### Only a one-frame minimum duration (C4); strict positivity (C10) -/

lemma halfSecFrames_pos (sr hop : ℕ) (hhop : 0 < hop) (hfr : 2 * hop ≤ sr) :
    1 ≤ halfSecFrames sr hop := by
  have hhopQ : (0:ℚ) < (hop:ℚ) := by exact_mod_cast hhop
  have h1 : (1:ℚ) ≤ frameRate sr hop * (1/2) := by
    rw [frameRate, div_mul_eq_mul_div, one_le_div hhopQ]
    have h2 : ((2 * hop : ℕ) : ℚ) ≤ ((sr : ℕ) : ℚ) := by exact_mod_cast hfr
    push_cast at h2
    linarith
  have h2 : (1:ℤ) ≤ ⌊frameRate sr hop * (1/2)⌋ := by
    rw [Int.le_floor]
    exact_mod_cast h1
  rw [halfSecFrames]
  omega

lemma decayFrame_ge (sr hop : ℕ) (C : List (List ℚ)) (onset bin cf : ℕ)
    (h : decayFrame sr hop C onset bin = some cf) : onset + 1 ≤ cf := by
  unfold decayFrame at h
  have hmem := List.mem_of_find?_eq_some h
  rw [List.mem_range'] at hmem
  obtain ⟨i, -, rfl⟩ := hmem
  omega

/-- Shared helper: every estimated offset frame is at least one frame past
the onset, provided the fallback `int(frame_rate * 0.5)` is nonzero
(equivalently `frame_rate ≥ 2`, true of the default 22050 / 512). -/
lemma offsetFrame_ge (sr hop : ℕ) (hhop : 0 < hop) (hfr : 2 * hop ≤ sr)
    (C : List (List ℚ)) (onset bin : ℕ) :
    onset + 1 ≤ offsetFrame sr hop C onset bin := by
  rw [offsetFrame]
  rcases h : decayFrame sr hop C onset bin with _ | cf
  · simp only [Option.getD_none]
    have := halfSecFrames_pos sr hop hhop hfr
    omega
  · simp only [Option.getD_some]
    exact decayFrame_ge sr hop C onset bin cf h

/-- C4, amended.  The code has no `min_duration_s` and never extends an
offset to meet one: the only guaranteed lower bound on a candidate's
duration is a single frame (the decay scan starts at `onset_frame + 1`, and
the 0.5 s fallback adds `int(frame_rate * 0.5) ≥ 1` frames whenever
`frame_rate ≥ 2`, in particular at the default 22050 / 512). -/
theorem offsetFrame_one_frame_minimum (sr hop : ℕ) (hhop : 0 < hop)
    (hfr : 2 * hop ≤ sr) (C : List (List ℚ)) (onset bin : ℕ) :
    onset + 1 ≤ offsetFrame sr hop C onset bin :=
  offsetFrame_ge sr hop hhop hfr C onset bin

theorem offsetFrame_one_frame_minimum_witness :
    0 < 512 ∧ 2 * 512 ≤ 22050 ∧
    0 + 1 ≤ offsetFrame 22050 512 [[-60, -10, -60], [-60, -60, -60]] 0 1 :=
  ⟨by decide, by decide,
    offsetFrame_one_frame_minimum 22050 512 (by decide) (by decide) _ 0 1⟩

/-- C4 as written fails on the code: a −10 dB peak at bin 1 of frame 0 that
has decayed below −50 dB by frame 1 gets offset frame exactly `onset + 1` —
one frame ≈ 0.023 s — with no extension towards any
`min_duration_s * frame_rate` bound (with `min_duration_s = 0.1 s` the
claimed bound would be ≈ 4.3 frames at the default frame rate). -/
theorem no_min_duration_extension :
    ¬ (∀ (sr hop : ℕ) (C : List (List ℚ)) (onset bin : ℕ),
        bin ∈ findPeaks (colAt C onset) (-40) 2 →
        (1/10 : ℚ) * frameRate sr hop
          ≤ (offsetFrame sr hop C onset bin : ℚ) - (onset : ℕ)) := by
  intro h
  have hx := h 22050 512 [[-60, -10, -60], [-60, -60, -60]] 0 1
    (by norm_num [findPeaks, localMaxima, lmLoop, plateauEnd, heightSelect,
      distanceSelect, prioOrder, sortBy, insertBy, applyMask, clearNear, colAt,
      List.range, List.range.loop])
  have ho : offsetFrame 22050 512 [[-60, -10, -60], [-60, -60, -60]] 0 1 = 1 := by
    norm_num [offsetFrame, decayFrame, twoSecFrames, halfSecFrames, frameRate,
      cqtVal, colAt, List.range', List.find?]
  rw [ho] at hx
  norm_num [frameRate] at hx

/-! ### The overlap invariant (C2) -/

/-- Two `[onset, offset)` intervals overlap: some instant lies in both. -/
def overlaps (a b : NoteEvent) : Prop :=
  max a.onset_time_s b.onset_time_s < min a.offset_time_s b.offset_time_s

lemma any_coveredBy_iff (kept : List NoteEvent) (n : NoteEvent) :
    (kept.any fun e => coveredBy e n) = true ↔
      ∃ e ∈ kept, e.pitch_midi = n.pitch_midi ∧
        e.onset_time_s ≤ n.onset_time_s ∧ n.onset_time_s < e.offset_time_s := by
  rw [List.any_eq_true]
  constructor
  · rintro ⟨e, he, hp⟩
    exact ⟨e, he, of_decide_eq_true hp⟩
  · rintro ⟨e, he, hp⟩
    exact ⟨e, he, decide_eq_true hp⟩

lemma overlapGo_noov :
    ∀ (l kept : List NoteEvent),
      (∀ e ∈ kept, ∀ m ∈ l, e.onset_time_s ≤ m.onset_time_s) →
      l.Pairwise (fun m n => m.onset_time_s ≤ n.onset_time_s) →
      kept.Pairwise (fun a b => a.pitch_midi = b.pitch_midi → ¬ overlaps a b) →
      (overlapGo kept l).Pairwise
        (fun a b => a.pitch_midi = b.pitch_midi → ¬ overlaps a b) := by
  intro l
  induction l with
  | nil => intro kept _ _ h3; exact h3
  | cons n rest ih =>
      intro kept h1 h2 h3
      rw [overlapGo]
      split
      · exact ih kept (fun e he m hm => h1 e he m (List.mem_cons_of_mem n hm))
          (List.pairwise_cons.mp h2).2 h3
      · rename_i hrej
        apply ih (kept ++ [n])
        · intro e he m hm
          rcases List.mem_append.mp he with he' | he'
          · exact h1 e he' m (List.mem_cons_of_mem n hm)
          · rw [List.mem_singleton.mp he']
            exact (List.pairwise_cons.mp h2).1 m hm
        · exact (List.pairwise_cons.mp h2).2
        · rw [List.pairwise_append]
          refine ⟨h3, List.pairwise_singleton _ _, fun e he n' hn' => ?_⟩
          rw [List.mem_singleton.mp hn']
          intro hpitch hov
          rw [overlaps] at hov
          have hon : e.onset_time_s ≤ n.onset_time_s :=
            h1 e he n (List.mem_cons_self n rest)
          have hno : ¬ (n.onset_time_s < e.offset_time_s) := fun hlt =>
            hrej ((any_coveredBy_iff kept n).mpr ⟨e, he, hpitch, hon, hlt⟩)
          have h4 := le_of_not_lt hno
          have h5 := min_le_left e.offset_time_s n.offset_time_s
          have h6 := le_max_right e.onset_time_s n.onset_time_s
          linarith

/-- C2.  For every spectrogram, onset-frame input, sample rate and hop
length: no two notes of the returned transcription share `pitch_midi` while
their `[onset, offset)` intervals overlap; and the list handed to the
overlap filter is sorted by ascending onset time. -/
theorem transcribe_no_same_pitch_overlap (sr hop : ℕ) (C : List (List ℚ))
    (frames : List ℕ) :
    (transcribe sr hop C frames).Pairwise
      (fun a b => a.pitch_midi = b.pitch_midi → ¬ overlaps a b) ∧
    (sortedCandidates sr hop C frames).Pairwise
      (fun m n => m.onset_time_s ≤ n.onset_time_s) := by
  refine ⟨?_, sortBy_sorted _⟩
  rw [transcribe, overlapFilter]
  exact overlapGo_noov _ [] (by simp) (sortBy_sorted _) (by simp)

/-! ### Strictly positive durations (C10) -/

lemma mem_overlapGo :
    ∀ (l kept : List NoteEvent) (x : NoteEvent),
      x ∈ overlapGo kept l → x ∈ kept ∨ x ∈ l := by
  intro l
  induction l with
  | nil => intro kept x hx; exact Or.inl hx
  | cons n rest ih =>
      intro kept x hx
      rw [overlapGo] at hx
      split at hx
      · rcases ih kept x hx with h | h
        · exact Or.inl h
        · exact Or.inr (List.mem_cons_of_mem n h)
      · rcases ih (kept ++ [n]) x hx with h | h
        · rcases List.mem_append.mp h with h' | h'
          · exact Or.inl h'
          · exact Or.inr (List.mem_cons.mpr (Or.inl (List.mem_singleton.mp h')))
        · exact Or.inr (List.mem_cons_of_mem n h)

lemma mem_rawCandidates (sr hop : ℕ) (C : List (List ℚ)) (frames : List ℕ)
    (x : NoteEvent) (hx : x ∈ rawCandidates sr hop C frames) :
    ∃ f ∈ frames, f < C.length ∧ x ∈ candidatesAt sr hop C f := by
  rw [rawCandidates] at hx
  rcases List.mem_flatMap.mp hx with ⟨f, hf, hxf⟩
  rw [frameNotes] at hxf
  split at hxf
  · exact ⟨f, hf, by assumption, hxf⟩
  · simp at hxf

lemma frameTime_strict_mono (sr hop : ℕ) (hhop : 0 < hop) (hsr : 0 < sr)
    {a b : ℕ} (h : a < b) : frameTime sr hop a < frameTime sr hop b := by
  rw [frameTime, frameTime]
  have hsrQ : (0:ℚ) < (sr:ℚ) := by exact_mod_cast hsr
  have hhopQ : (0:ℚ) < (hop:ℚ) := by exact_mod_cast hhop
  have hab : (a:ℚ) < (b:ℚ) := by exact_mod_cast h
  rw [div_lt_div_iff_of_pos_right hsrQ]
  exact mul_lt_mul_of_pos_right hab hhopQ

/-- C10.  Every note emitted by the extractor has a strictly positive
duration: the offset frame is at least one past the onset frame (decay scan
from `onset_frame + 1`; fallback `int(frame_rate * 0.5) ≥ 1` frames when
`frame_rate ≥ 2`, as at the default 22050 / 512), and frame-to-time
conversion is strictly monotone. -/
theorem transcribe_duration_positive (sr hop : ℕ) (hhop : 0 < hop)
    (hsr : 0 < sr) (hfr : 2 * hop ≤ sr) (C : List (List ℚ)) (frames : List ℕ)
    (n : NoteEvent) (hn : n ∈ transcribe sr hop C frames) :
    n.onset_time_s < n.offset_time_s := by
  rw [transcribe, overlapFilter] at hn
  rcases mem_overlapGo _ [] n hn with h | h
  · simp at h
  · rw [sortedCandidates, mem_sortBy] at h
    rcases mem_rawCandidates sr hop C frames n h with ⟨f, hf, hflen, hx⟩
    rcases List.mem_map.mp hx with ⟨bin, hbin, rfl⟩
    show frameTime sr hop f < frameTime sr hop (offsetFrame sr hop C f bin)
    exact frameTime_strict_mono sr hop hhop hsr
      (Nat.lt_of_lt_of_le (Nat.lt_succ_self f) (offsetFrame_ge sr hop hhop hfr C f bin))

theorem transcribe_duration_positive_witness :
    0 < 512 ∧ 0 < 22050 ∧ 2 * 512 ≤ 22050 ∧
    (⟨22, 0, 256/11025, 100, 1/2⟩ : NoteEvent) ∈
      transcribe 22050 512 [[-60, -10, -60], [-60, -60, -60]] [0] ∧
    (⟨22, 0, 256/11025, 100, 1/2⟩ : NoteEvent).onset_time_s
      < (⟨22, 0, 256/11025, 100, 1/2⟩ : NoteEvent).offset_time_s := by
  have hmem : (⟨22, 0, 256/11025, 100, 1/2⟩ : NoteEvent) ∈
      transcribe 22050 512 [[-60, -10, -60], [-60, -60, -60]] [0] := by
    norm_num [transcribe, sortedCandidates, rawCandidates, frameNotes, candidatesAt,
      findPeaks, localMaxima, lmLoop, plateauEnd, heightSelect, distanceSelect,
      prioOrder, sortBy, insertBy, applyMask, clearNear, noteAt, offsetFrame,
      decayFrame, twoSecFrames, halfSecFrames, frameRate, frameTime, cqtVal, colAt,
      velocityOf, overlapFilter, overlapGo, coveredBy, List.find?, List.range',
      List.range, List.range.loop]
  exact ⟨by decide, by decide, by decide, hmem,
    transcribe_duration_positive 22050 512 (by decide) (by decide) (by decide)
      _ _ _ hmem⟩

/-! ### The ordering invariant (C6)

The sort key is only the onset time, so the pitch tie-break of equal-onset
notes rests on a subtler fact: equal onset times force equal onset frames
(frame-to-time conversion is injective), candidates of one frame carry
strictly ascending pitches, and a repeated onset frame reproduces the same
candidates, whose later copies the overlap filter always rejects.  The
proof tracks this through a counting argument: in every prefix of the
candidate list, a higher-pitched note of some onset is preceded by at least
as many copies of any lower-pitched note of the same onset. -/

lemma candidatesAt_onset (sr hop : ℕ) (C : List (List ℚ)) (f : ℕ) :
    ∀ n ∈ candidatesAt sr hop C f, n.onset_time_s = frameTime sr hop f := by
  intro n hn
  rcases List.mem_map.mp hn with ⟨bin, -, rfl⟩
  rfl

lemma candidatesAt_pitch_sorted (sr hop : ℕ) (C : List (List ℚ)) (f : ℕ) :
    (candidatesAt sr hop C f).Pairwise (fun a b => a.pitch_midi < b.pitch_midi) := by
  refine (findPeaks_sorted _ _ _).map _ (fun a b h => ?_)
  show 21 + a < 21 + b
  omega

lemma frameNotes_onset (sr hop : ℕ) (C : List (List ℚ)) (f : ℕ) :
    ∀ n ∈ frameNotes sr hop C f, n.onset_time_s = frameTime sr hop f := by
  intro n hn
  rw [frameNotes] at hn
  split at hn
  · exact candidatesAt_onset sr hop C f n hn
  · simp at hn

lemma frameNotes_pitch_sorted (sr hop : ℕ) (C : List (List ℚ)) (f : ℕ) :
    (frameNotes sr hop C f).Pairwise (fun a b => a.pitch_midi < b.pitch_midi) := by
  rw [frameNotes]
  split
  · exact candidatesAt_pitch_sorted sr hop C f
  · simp

lemma frameTime_inj (sr hop : ℕ) (hhop : 0 < hop) (hsr : 0 < sr) {a b : ℕ}
    (h : frameTime sr hop a = frameTime sr hop b) : a = b := by
  rcases Nat.lt_trichotomy a b with hab | hab | hab
  · exact absurd h (ne_of_lt (frameTime_strict_mono sr hop hhop hsr hab))
  · exact hab
  · exact absurd h.symm (ne_of_lt (frameTime_strict_mono sr hop hhop hsr hab))

lemma prefix_append_cases {α : Type _} {q A B : List α} (h : List.IsPrefix q (A ++ B)) :
    List.IsPrefix q A ∨ ∃ q', List.IsPrefix q' B ∧ q = A ++ q' := by
  induction A generalizing q with
  | nil => exact Or.inr ⟨q, by simpa using h, rfl⟩
  | cons a A ih =>
      cases q with
      | nil => exact Or.inl (List.nil_prefix)
      | cons x q =>
          rw [List.cons_append, List.cons_prefix_cons] at h
          obtain ⟨rfl, h'⟩ := h
          rcases ih h' with h1 | ⟨q', h2, rfl⟩
          · exact Or.inl (List.cons_prefix_cons.mpr ⟨rfl, h1⟩)
          · exact Or.inr ⟨q', h2, rfl⟩

/-- In any prefix of a pitch-sorted chunk, a lower-pitched note `v` occurs
at least as often as a higher-pitched note `u` (each occurs at most once,
and `v` sits in front of `u`). -/
lemma prefix_count_chunk {u v : NoteEvent} (L q : List NoteEvent)
    (hq : List.IsPrefix q L)
    (hL : L.Pairwise (fun a b => a.pitch_midi < b.pitch_midi))
    (hv : v ∈ L) (hpv : v.pitch_midi < u.pitch_midi) :
    q.count u ≤ q.count v := by
  by_cases hu : u ∈ q
  · obtain ⟨s, rfl⟩ := hq
    have hvq : v ∈ q := by
      rcases List.mem_append.mp hv with h | h
      · exact h
      · have := (List.pairwise_append.mp hL).2.2 u hu v h
        omega
    have hn : (q ++ s).Nodup :=
      hL.imp fun hab heq => absurd (heq ▸ hab) (lt_irrefl _)
    have hcu : q.count u ≤ 1 :=
      le_trans (List.Sublist.count_le (List.sublist_append_left q s) u)
        (List.nodup_iff_count_le_one.mp hn u)
    have hcv : 0 < q.count v := List.count_pos_iff.mpr hvq
    omega
  · rw [List.count_eq_zero_of_not_mem hu]
    exact Nat.zero_le _

/-- The ballot transfer along a flat map: if every prefix of every chunk has
at least as many `v`s as `u`s, so does every prefix of the concatenation. -/
lemma ballot_flatMap (g : ℕ → List NoteEvent) (u v : NoteEvent)
    (hchunk : ∀ f q, List.IsPrefix q (g f) → q.count u ≤ q.count v) :
    ∀ (fs : List ℕ) (q : List NoteEvent),
      List.IsPrefix q (fs.flatMap g) → q.count u ≤ q.count v := by
  intro fs
  induction fs with
  | nil =>
      intro q hq
      rw [List.flatMap_nil] at hq
      rw [List.prefix_nil.mp hq]
      exact le_refl _
  | cons f fs ih =>
      intro q hq
      rw [List.flatMap_cons] at hq
      rcases prefix_append_cases hq with hq' | ⟨q', hq', rfl⟩
      · exact hchunk f q hq'
      · rw [List.count_append, List.count_append]
        exact Nat.add_le_add (hchunk f _ (List.prefix_refl _)) (ih q' hq')

/-- Core duplicate fact: in the sorted candidate list, any note standing
left of a same-onset, higher-pitched note already occurs earlier itself (it
is a copy produced by a repeated onset frame). -/
lemma earlier_duplicate (sr hop : ℕ) (hhop : 0 < hop) (hsr : 0 < sr)
    (C : List (List ℚ)) (frames : List ℕ) (pre post : List NoteEvent)
    (m : NoteEvent) (hsplit : sortedCandidates sr hop C frames = pre ++ m :: post)
    (e : NoteEvent) (he : e ∈ pre) (heq : e.onset_time_s = m.onset_time_s)
    (hlt : m.pitch_midi < e.pitch_midi) : m ∈ pre := by
  have hm_sorted : m ∈ sortedCandidates sr hop C frames := by
    rw [hsplit]
    exact List.mem_append_right pre (List.mem_cons_self m post)
  have hm_raw : m ∈ rawCandidates sr hop C frames := by
    rw [sortedCandidates] at hm_sorted
    exact (mem_sortBy noteBefore _).mp hm_sorted
  have hchunk : ∀ f q,
      List.IsPrefix q ((frameNotes sr hop C f).filter
        (fun n => decide (n.onset_time_s = m.onset_time_s))) →
      q.count e ≤ q.count m := by
    intro f q hq
    by_cases hu : e ∈ (frameNotes sr hop C f).filter
        (fun n => decide (n.onset_time_s = m.onset_time_s))
    · have he1 := List.mem_filter.mp hu
      have hef : frameTime sr hop f = m.onset_time_s := by
        rw [← frameNotes_onset sr hop C f e he1.1]
        exact heq
      have hmf : m ∈ (frameNotes sr hop C f).filter
          (fun n => decide (n.onset_time_s = m.onset_time_s)) := by
        rw [rawCandidates] at hm_raw
        rcases List.mem_flatMap.mp hm_raw with ⟨f', hf', hmf'⟩
        have hef' : frameTime sr hop f' = m.onset_time_s :=
          (frameNotes_onset sr hop C f' m hmf').symm
        have hff : f' = f := frameTime_inj sr hop hhop hsr (by rw [hef', hef])
        subst hff
        exact List.mem_filter.mpr ⟨hmf', decide_eq_true rfl⟩
      exact prefix_count_chunk _ q hq
        ((frameNotes_pitch_sorted sr hop C f).filter _) hmf hlt
    · have hz : q.count e = 0 := by
        rw [List.count_eq_zero]
        intro hcon
        exact hu (hq.sublist.subset hcon)
      rw [hz]
      exact Nat.zero_le _
  have hpre : List.IsPrefix pre (sortedCandidates sr hop C frames) :=
    ⟨m :: post, hsplit.symm⟩
  have hpf := hpre.filter (fun n => decide (n.onset_time_s = m.onset_time_s))
  rw [sortedCandidates, sortBy_filter_key, rawCandidates, List.filter_flatMap] at hpf
  have hballot := ballot_flatMap _ e m hchunk frames _ hpf
  have h1 : (pre.filter (fun n => decide (n.onset_time_s = m.onset_time_s))).count e
      = pre.count e := List.count_filter (decide_eq_true heq)
  have h2 : (pre.filter (fun n => decide (n.onset_time_s = m.onset_time_s))).count m
      = pre.count m := List.count_filter (decide_eq_true rfl)
  have hepos : 0 < pre.count e := List.count_pos_iff.mpr he
  rw [h1, h2] at hballot
  exact List.count_pos_iff.mp (by omega)

/-- The rejection condition of the overlap filter, as a proposition: some
already-kept note of the same pitch covers `m`'s onset. -/
def Cov (kept : List NoteEvent) (m : NoteEvent) : Prop :=
  ∃ e ∈ kept, e.pitch_midi = m.pitch_midi ∧
    e.onset_time_s ≤ m.onset_time_s ∧ m.onset_time_s < e.offset_time_s

lemma any_coveredBy_iff_cov (kept : List NoteEvent) (n : NoteEvent) :
    (kept.any fun e => coveredBy e n) = true ↔ Cov kept n :=
  any_coveredBy_iff kept n

lemma overlapGo_lex :
    ∀ (l kept : List NoteEvent),
      (∀ e ∈ kept, ∀ m ∈ l, e.onset_time_s ≤ m.onset_time_s) →
      l.Pairwise (fun a b => a.onset_time_s ≤ b.onset_time_s) →
      kept.Pairwise (fun a b => a.onset_time_s < b.onset_time_s ∨
        (a.onset_time_s = b.onset_time_s ∧ a.pitch_midi ≤ b.pitch_midi)) →
      (∀ m ∈ l, m.onset_time_s < m.offset_time_s) →
      (∀ pre m post, l = pre ++ m :: post →
        (∃ e, (e ∈ kept ∨ e ∈ pre) ∧ e.onset_time_s = m.onset_time_s ∧
          m.pitch_midi < e.pitch_midi) → m ∈ pre ∨ Cov kept m) →
      (overlapGo kept l).Pairwise (fun a b => a.onset_time_s < b.onset_time_s ∨
        (a.onset_time_s = b.onset_time_s ∧ a.pitch_midi ≤ b.pitch_midi)) := by
  intro l
  induction l with
  | nil => intro kept _ _ h3 _ _; exact h3
  | cons n rest ih =>
      intro kept h1 h2 h3 hd hi
      rw [overlapGo]
      split
      · rename_i hcov
        have hcovP : Cov kept n := (any_coveredBy_iff_cov kept n).mp hcov
        apply ih kept
        · exact fun e he m hm => h1 e he m (List.mem_cons_of_mem n hm)
        · exact (List.pairwise_cons.mp h2).2
        · exact h3
        · exact fun m hm => hd m (List.mem_cons_of_mem n hm)
        · intro pre m post hsplit hex
          rcases hex with ⟨e, he, heq, hlt⟩
          have hsplit' : n :: rest = (n :: pre) ++ m :: post := by
            rw [hsplit]
            rfl
          have he' : e ∈ kept ∨ e ∈ n :: pre := by
            rcases he with h | h
            · exact Or.inl h
            · exact Or.inr (List.mem_cons_of_mem n h)
          rcases hi (n :: pre) m post hsplit' ⟨e, he', heq, hlt⟩ with hm | hm
          · rcases List.mem_cons.mp hm with hmn | hmp
            · subst hmn
              exact Or.inr hcovP
            · exact Or.inl hmp
          · exact Or.inr hm
      · rename_i hncov
        have hnc : ¬ Cov kept n := fun hc => hncov ((any_coveredBy_iff_cov kept n).mpr hc)
        apply ih (kept ++ [n])
        · intro e he m hm
          rcases List.mem_append.mp he with he' | he'
          · exact h1 e he' m (List.mem_cons_of_mem n hm)
          · rw [List.mem_singleton.mp he']
            exact (List.pairwise_cons.mp h2).1 m hm
        · exact (List.pairwise_cons.mp h2).2
        · rw [List.pairwise_append]
          refine ⟨h3, List.pairwise_singleton _ _, fun e he x hx => ?_⟩
          rw [List.mem_singleton.mp hx]
          have hon : e.onset_time_s ≤ n.onset_time_s :=
            h1 e he n (List.mem_cons_self n rest)
          rcases lt_or_eq_of_le hon with hlt' | heq'
          · exact Or.inl hlt'
          · refine Or.inr ⟨heq', ?_⟩
            by_contra hc
            have hpe : n.pitch_midi < e.pitch_midi := Nat.lt_of_not_le hc
            rcases hi [] n rest rfl ⟨e, Or.inl he, heq', hpe⟩ with hin | hin
            · simp at hin
            · exact hnc hin
        · exact fun m hm => hd m (List.mem_cons_of_mem n hm)
        · intro pre m post hsplit hex
          rcases hex with ⟨e, he, heq, hlt⟩
          have hsplit' : n :: rest = (n :: pre) ++ m :: post := by
            rw [hsplit]
            rfl
          have he' : e ∈ kept ∨ e ∈ n :: pre := by
            rcases he with h | h
            · rcases List.mem_append.mp h with h1' | h1'
              · exact Or.inl h1'
              · exact Or.inr (List.mem_cons.mpr
                  (Or.inl (List.mem_singleton.mp h1')))
            · exact Or.inr (List.mem_cons_of_mem n h)
          rcases hi (n :: pre) m post hsplit' ⟨e, he', heq, hlt⟩ with hm | hm
          · rcases List.mem_cons.mp hm with hmn | hmp
            · subst hmn
              exact Or.inr ⟨m, List.mem_append_right _ (List.mem_cons_self m []),
                rfl, le_refl _, hd m (List.mem_cons_self m rest)⟩
            · exact Or.inl hmp
          · rcases hm with ⟨e', he'', hrest⟩
            exact Or.inr ⟨e', List.mem_append_left _ he'', hrest⟩

lemma sortedCandidates_duration_pos (sr hop : ℕ) (hhop : 0 < hop) (hsr : 0 < sr)
    (hfr : 2 * hop ≤ sr) (C : List (List ℚ)) (frames : List ℕ) :
    ∀ m ∈ sortedCandidates sr hop C frames, m.onset_time_s < m.offset_time_s := by
  intro m hm
  rw [sortedCandidates] at hm
  have hm' := (mem_sortBy noteBefore _).mp hm
  rcases mem_rawCandidates sr hop C frames m hm' with ⟨f, hf, hflen, hx⟩
  rcases List.mem_map.mp hx with ⟨bin, hbin, rfl⟩
  show frameTime sr hop f < frameTime sr hop (offsetFrame sr hop C f bin)
  exact frameTime_strict_mono sr hop hhop hsr
    (Nat.lt_of_lt_of_le (Nat.lt_succ_self f) (offsetFrame_ge sr hop hhop hfr C f bin))

/-- C6.  Every transcription is ordered by ascending `onset_time_s`, ties
broken by ascending `pitch_midi` (pairwise non-strict lexicographic order);
in particular onset times are non-decreasing.  Stated for any parameters
with `frame_rate ≥ 2` — in particular the constructor defaults 22050/512 —
so that every candidate's duration is strictly positive. -/
theorem transcribe_ordered (sr hop : ℕ) (hhop : 0 < hop) (hsr : 0 < sr)
    (hfr : 2 * hop ≤ sr) (C : List (List ℚ)) (frames : List ℕ) :
    (transcribe sr hop C frames).Pairwise
      (fun a b => a.onset_time_s < b.onset_time_s ∨
        (a.onset_time_s = b.onset_time_s ∧ a.pitch_midi ≤ b.pitch_midi)) := by
  rw [transcribe, overlapFilter]
  apply overlapGo_lex _ []
  · simp
  · exact sortBy_sorted _
  · simp
  · exact sortedCandidates_duration_pos sr hop hhop hsr hfr C frames
  · intro pre m post hsplit hex
    rcases hex with ⟨e, he, heq, hlt⟩
    rcases he with he | he
    · simp at he
    · exact Or.inl
        (earlier_duplicate sr hop hhop hsr C frames pre post m hsplit e he heq hlt)

theorem transcribe_ordered_witness :
    0 < 512 ∧ 0 < 22050 ∧ 2 * 512 ≤ 22050 ∧
    (transcribe 22050 512
        [[-60, -10, -60, -60], [-60, -60, -10, -60], [-60, -60, -60, -60]]
        [0, 1]).Pairwise
      (fun a b => a.onset_time_s < b.onset_time_s ∨
        (a.onset_time_s = b.onset_time_s ∧ a.pitch_midi ≤ b.pitch_midi)) :=
  ⟨by decide, by decide, by decide,
    transcribe_ordered 22050 512 (by decide) (by decide) (by decide) _ _⟩

end Pianoscribe
